import Mathlib

/-!
Verification of the placeholder identity-binding and value-synchronization
engine of the `filler` frontend (`src/frontend/src/components/Edit.tsx`).

The JavaScript state is shallowly embedded: a JS plain object keyed by strings
becomes an insertion-ordered association list `List (String × α)`; JS
`obj[k] = v` becomes `setKey`, `obj[k]` becomes `lookupKey`; `undefined ?? d`
becomes `Option.getD`.  A docx document is modelled at the parsed level as a
list of parts, each either literal text or a placeholder tag (a tag with raw
content `r` stands for the bytes `"[" ++ r ++ "]"` under the delimiter pair
`DELIMS = { start: "[", end: "]" }`).
-/

namespace Filler

/-- JS object member access `obj[k]`: the first entry with key `k`. -/
def lookupKey {α : Type} : List (String × α) → String → Option α
  | [], _ => none
  | (k', v) :: rest, k => if k' = k then some v else lookupKey rest k

/-- JS object member assignment `obj[k] = v`: overwrite the entry when the key
is present, append a new entry otherwise. -/
def setKey {α : Type} : List (String × α) → String → α → List (String × α)
  | [], k, v => [(k, v)]
  | (k', v') :: rest, k, v =>
      if k' = k then (k, v) :: rest else (k', v') :: setKey rest k v

/-- `Object.keys`. -/
def keysOf {α : Type} (l : List (String × α)) : List String := l.map Prod.fst

/-- JS `s.trim()`: strip leading and trailing whitespace. -/
def strTrim (s : String) : String :=
  String.mk ((((s.data.dropWhile Char.isWhitespace).reverse).dropWhile Char.isWhitespace).reverse)

/-- Decimal digit character (`'0'` has code 48). -/
def digitChar (d : Nat) : Char := Char.ofNat (48 + d)

/-- Big-endian decimal digits of `n`, with explicit fuel (`fuel ≥ n` suffices). -/
def natDigitsAux (fuel : Nat) (n : Nat) : List Char :=
  match fuel with
  | 0 => []
  | f + 1 => if n = 0 then [] else natDigitsAux f (n / 10) ++ [digitChar (n % 10)]

/-- JS `String(n)` for a natural number: its decimal representation. -/
def natToString (n : Nat) : String :=
  if n = 0 then "0" else String.mk (natDigitsAux n n)

/-- JS `s.padStart(3, "0")`. -/
def padStart3 (s : String) : String :=
  String.mk (List.replicate (3 - s.data.length) '0' ++ s.data)

/-- Re-wrap a tag name in the delimiter pair: `` `${DELIMS.start}${s}${DELIMS.end}` ``. -/
def wrap (s : String) : String := "[" ++ s ++ "]"

/-- A parsed document part: literal text, or a placeholder tag whose raw
enclosed content is `raw`. -/
inductive DocPart where
  | text (s : String)
  | tag (raw : String)
deriving DecidableEq, Repr

/-- The bytes a part renders to: a tag `r` renders as `"[" ++ r ++ "]"`. -/
def partBytes : DocPart → String
  | .text s => s
  | .tag r => wrap r

/-- The raw tags of a document in order of occurrence. -/
def tagsOf (doc : List DocPart) : List String :=
  doc.filterMap (fun p => match p with | .text _ => none | .tag r => some r)

/-- Number of raw placeholder tokens of a document. -/
def numTags (doc : List DocPart) : Nat := (tagsOf doc).length

/-- Synthetic fallback name for the token at 1-based position `pos`:
`` `placeholder_${String(pos).padStart(3, "0")}` ``. -/
def fallbackName (pos : Nat) : String := "placeholder_" ++ padStart3 (natToString pos)

/-- The name bound to occurrence `i` (0-based):
`` orderedNewNames[idx] ?? `placeholder_...` ``. -/
def resolveName (names : List String) (i : Nat) : String :=
  (names[i]?).getD (fallbackName (i + 1))

/-- Worker for `renameDocxByOccurrence`: `i` is the running occurrence counter
`idx`; each tag encountered is replaced by the bound name re-wrapped in the
delimiters (a tag part with the new raw name). -/
def renameGo (names : List String) : Nat → List DocPart → List DocPart
  | _, [] => []
  | i, .text s :: rest => .text s :: renameGo names i rest
  | i, .tag _ :: rest => .tag (resolveName names i) :: renameGo names (i + 1) rest

/-- `renameDocxByOccurrence`: rewrite the document, binding the i-th
encountered tag to `orderedNewNames[i]` (or the synthetic fallback). -/
def renameDocxByOccurrence (names : List String) (doc : List DocPart) : List DocPart :=
  renameGo names 0 doc

/-- One `{order, name, description}` record from the upload response. -/
structure ApiPlaceholder where
  name : String
  description : String
deriving DecidableEq, Repr

def firstDedupAux (seen : List String) : List String → List String
  | [] => []
  | k :: rest =>
      if k ∈ seen then firstDedupAux seen rest else k :: firstDedupAux (k :: seen) rest

/-- Key set of `inspectModule.getAllTags()`: the tags of the document,
deduplicated keeping the first occurrence (JS object insertion order). -/
def firstDedup (l : List String) : List String := firstDedupAux [] l

/-- `Placeholder` record of the store: `{ name, description, value }`. -/
structure Placeholder where
  name : String
  description : String
  value : String
deriving DecidableEq, Repr

/-- `descByName` built with `Object.fromEntries` (later duplicate keys win). -/
def descByName (api : List ApiPlaceholder) (k : String) : Option String :=
  (api.reverse.find? (fun a => a.name == k)).map (fun a => a.description)

/-- `orderedNewNames = (phFromAPI || []).map(s => s.name)`; this is the value
stored in the `orderedNames` state by `handleFileUpload`. -/
def uploadOrderedNames (api : List ApiPlaceholder) : List String :=
  api.map (fun a => a.name)

/-- The placeholder store seeded by `handleFileUpload`: one entry per tag key
of the renamed document, with the API description and an empty value. -/
def uploadStore (api : List ApiPlaceholder) (doc : List DocPart) :
    List (String × Placeholder) :=
  (firstDedup (tagsOf (renameDocxByOccurrence (uploadOrderedNames api) doc))).map
    (fun k => (k, ⟨k, (descByName api k).getD "", ""⟩))

/-- Drafts seeded from the freshly extracted placeholders. -/
def uploadDrafts (api : List ApiPlaceholder) (doc : List DocPart) :
    List (String × String) :=
  (uploadStore api doc).map (fun e => (e.1, e.2.value))

/-- `StructuredUpdate = { name?: string; order?: number; value: string }`
(`value` is guarded by `?? ""` in the code, hence `Option`). -/
structure StructuredUpdate where
  name : Option String
  order : Option Int
  value : Option String
deriving DecidableEq, Repr

/-- Key resolution shared by `applyStructuredUpdates` and the chat callback:
`let key = u.name?.trim(); if (!key && typeof u.order === "number") { const
idx = u.order - 1; if (idx >= 0 && idx < orderedNames.length) key =
orderedNames[idx]; }`.  The JS falsy values `undefined` and `""` are both
modelled by `""`. -/
def resolveKey (names : List String) (u : StructuredUpdate) : String :=
  let key0 := strTrim ((u.name).getD "")
  if key0 = "" then
    match u.order with
    | some o =>
        if 1 ≤ o ∧ o ≤ (names.length : Int) then (names[(o - 1).toNat]?).getD "" else ""
    | none => ""
  else key0

/-- Body of the `updates.forEach` loop of `applyStructuredUpdates`:
`if (!key || !next[key]) return; next[key] = { ...next[key], value: u.value ?? "" }`. -/
def applyUpdate (names : List String) (store : List (String × Placeholder))
    (u : StructuredUpdate) : List (String × Placeholder) :=
  let key := resolveKey names u
  if key = "" then store
  else
    match lookupKey store key with
    | none => store
    | some ph => setKey store key { ph with value := (u.value).getD "" }

/-- `applyStructuredUpdates`, as a pure function of the store. -/
def applyStructuredUpdates (names : List String) (store : List (String × Placeholder))
    (updates : List StructuredUpdate) : List (String × Placeholder) :=
  updates.foldl (applyUpdate names) store

/-- The value of the last record of a batch that resolves to key `k` (the
batch is applied in order, so the last resolving record wins); `k = ""` never
counts as resolved. -/
def lastWinnerValue (names : List String) (k : String) : List StructuredUpdate → Option String
  | [] => none
  | u :: rest =>
      match lastWinnerValue names k rest with
      | some v => some v
      | none => if resolveKey names u = k ∧ k ≠ "" then some ((u.value).getD "") else none

/-- The component state relevant to the reconciler. -/
structure EditorState where
  orderedNames : List String
  placeholders : List (String × Placeholder)
  draftValues : List (String × String)
deriving DecidableEq, Repr

/-- `draftValues[name] ?? ""`. -/
def draftAt (st : EditorState) (k : String) : String :=
  (lookupKey st.draftValues k).getD ""

/-- `placeholders[name]?.value ?? ""`. -/
def committedAt (st : EditorState) (k : String) : String :=
  ((lookupKey st.placeholders k).map Placeholder.value).getD ""

/-- `isDirty`: the draft differs from the committed value, both normalized to
`""` for absence. -/
def dirtyAt (st : EditorState) (k : String) : Prop :=
  draftAt st k ≠ committedAt st k

instance (st : EditorState) (k : String) : Decidable (dirtyAt st k) := by
  unfold dirtyAt; infer_instance

/-- One iteration of the draft-reconciliation `useEffect` body for a committed
entry `e`: `if (!prev.hasOwnProperty(k) || !isDirty(k)) merged[k] = ph.value ?? ""`
(the dirtiness check reads the committed map via `placeholders[k]?.value ?? ""`
and the previous drafts). -/
def reconcileStep (phs : List (String × Placeholder)) (drafts : List (String × String))
    (merged : List (String × String)) (e : String × Placeholder) : List (String × String) :=
  if (lookupKey drafts e.1).isNone ∨
      (lookupKey drafts e.1).getD "" = ((lookupKey phs e.1).map Placeholder.value).getD "" then
    setKey merged e.1 e.2.value
  else merged

def reconcileGo (phs : List (String × Placeholder)) (drafts : List (String × String)) :
    List (String × Placeholder) → List (String × String) → List (String × String)
  | [], merged => merged
  | e :: rest, merged => reconcileGo phs drafts rest (reconcileStep phs drafts merged e)

/-- The draft-reconciliation `useEffect` body: starting from a copy of the
previous drafts, iterate over all committed entries applying `reconcileStep`. -/
def reconcileDrafts (phs : List (String × Placeholder)) (drafts : List (String × String)) :
    List (String × String) :=
  reconcileGo phs drafts phs drafts

/-- Run the reconciliation effect on the state. -/
def reconcile (st : EditorState) : EditorState :=
  { st with draftValues := reconcileDrafts st.placeholders st.draftValues }

/-- Body of the draft loop of the chat callback: unlike the store loop this
applies for every resolved key (`if (k) next[k] = u.value ?? ""`), with no
store-membership check. -/
def chatDraftStep (names : List String) (d : List (String × String))
    (u : StructuredUpdate) : List (String × String) :=
  let k := resolveKey names u
  if k = "" then d else setKey d k ((u.value).getD "")

/-- `onChatResponse`: commit the batch through `applyStructuredUpdates`, also
reflect each resolved update in the drafts, then the reconciliation effect
fires (its dependency `placeholders` changed). -/
def onChatResponse (updates : List StructuredUpdate) (st : EditorState) : EditorState :=
  reconcile
    { st with
      placeholders := applyStructuredUpdates st.orderedNames st.placeholders updates,
      draftValues := updates.foldl (chatDraftStep st.orderedNames) st.draftValues }

/-- The local part of `applyOne`: commit the current draft through
`applyStructuredUpdates([{ name, value }])`, set the draft to that value, then
the reconciliation effect fires. -/
def applyOneLocal (name : String) (st : EditorState) : EditorState :=
  let value := (lookupKey st.draftValues name).getD ""
  reconcile
    { st with
      placeholders := applyStructuredUpdates st.orderedNames st.placeholders
        [{ name := some name, order := none, value := some value }],
      draftValues := setKey st.draftValues name value }

/-- Outcome of the remote `updatePlaceholders` call of `applyOne`. -/
inductive SyncOutcome where
  | noDocumentId
  | ok
  | failed
deriving DecidableEq, Repr

/-- `applyOne` with the remote-sync outcome made explicit: the local commit
happens first and unconditionally; the sync outcome only selects the toast. -/
def applyOneWith (name : String) (sync : SyncOutcome) (st : EditorState) :
    EditorState × List String :=
  (applyOneLocal name st,
    match sync with
    | .noDocumentId => []
    | .ok => ["Placeholder updated"]
    | .failed => ["Update failed"])

/-- The scope built by `generateFilledArrayBuffer` (preview path):
`data[tag] = val.trim() !== "" ? val : "[" + tag + "]"`. -/
def previewData (store : List (String × Placeholder)) : List (String × String) :=
  store.map (fun e => (e.1, if strTrim e.2.value ≠ "" then e.2.value else wrap e.1))

/-- The scope built by `handleDownload`:
`if (val.trim() !== "") data[tag] = val`. -/
def downloadData (store : List (String × Placeholder)) : List (String × String) :=
  store.filterMap
    (fun e => if strTrim e.2.value ≠ "" then some (e.1, e.2.value) else none)

/-- The substitution the templating engine performs for a tag `t` under a
scope `data`: `parser(tag).get(scope)` returns `scope[tag]`, and when that is
undefined the `nullGetter` re-wraps the tag. -/
def renderSubst (data : List (String × String)) (t : String) : String :=
  match lookupKey data t with
  | some v => v
  | none => wrap t

/-- State touched by the preview `useEffect`. -/
structure PreviewState where
  placeholders : List (String × Placeholder)
  draftValues : List (String × String)
  view : Option String
  toasts : List String
deriving DecidableEq, Repr

/-- The preview `useEffect`: it first clears the preview node
(`previewRef.current.innerHTML = ""`), then regenerates the filled buffer via
the templating engine (modelled by `engine`, applied to the preview scope);
a caught engine failure toasts a preview error and returns with the view as
it stands. -/
def previewEffect (engine : List (String × String) → Except String String)
    (ps : PreviewState) : PreviewState :=
  let cleared : PreviewState := { ps with view := none }
  match engine (previewData ps.placeholders) with
  | .ok bytes => { cleared with view := some bytes }
  | .error msg => { cleared with toasts := cleared.toasts ++ ["Preview error: " ++ msg] }

/-! ### Association-list lemmas -/

theorem lookupKey_setKey_self {α : Type} (l : List (String × α)) (k : String) (v : α) :
    lookupKey (setKey l k v) k = some v := by
  induction l with
  | nil => simp [setKey, lookupKey]
  | cons e rest ih =>
      obtain ⟨k', v'⟩ := e
      by_cases h : k' = k <;> simp [setKey, lookupKey, h, ih]

theorem lookupKey_setKey_ne {α : Type} (l : List (String × α)) (k k' : String) (v : α)
    (h : k' ≠ k) : lookupKey (setKey l k' v) k = lookupKey l k := by
  induction l with
  | nil => simp [setKey, lookupKey, h]
  | cons e rest ih =>
      obtain ⟨k₀, v₀⟩ := e
      by_cases h0 : k₀ = k' <;> simp [setKey, lookupKey, h0, h, ih]

theorem keysOf_setKey {α : Type} (l : List (String × α)) (k : String) (v : α)
    (h : (lookupKey l k).isSome) : keysOf (setKey l k v) = keysOf l := by
  induction l with
  | nil => simp [lookupKey] at h
  | cons e rest ih =>
      obtain ⟨k₀, v₀⟩ := e
      by_cases h0 : k₀ = k
      · simp [setKey, keysOf, h0]
      · simp only [lookupKey, h0, if_false] at h
        simp [setKey, keysOf, h0, ih h] at *
        exact ih h

theorem lookupKey_eq_of_mem_nodup {α : Type} {l : List (String × α)} {k : String} {v : α}
    (hnd : (keysOf l).Nodup) (hm : (k, v) ∈ l) : lookupKey l k = some v := by
  induction l with
  | nil => simp at hm
  | cons e rest ih =>
      obtain ⟨k₀, v₀⟩ := e
      simp only [keysOf, List.map_cons, List.nodup_cons] at hnd
      rcases List.mem_cons.mp hm with h | h
      · obtain ⟨h1, h2⟩ := Prod.mk.injEq .. ▸ h
        simp_all [lookupKey]
      · have hk : k₀ ≠ k := by
          intro he
          exact hnd.1 (he ▸ (List.mem_map.mpr ⟨(k, v), h, rfl⟩))
        simp [lookupKey, hk, ih hnd.2 h]

/-! ### `applyStructuredUpdates` lemmas -/

theorem applyUpdate_frame (names : List String) (store : List (String × Placeholder))
    (u : StructuredUpdate) (k : String) (h : resolveKey names u ≠ k ∨ k = "") :
    lookupKey (applyUpdate names store u) k = lookupKey store k := by
  unfold applyUpdate
  by_cases hk : resolveKey names u = ""
  · simp [hk]
  · simp only [hk, if_false]
    have hne : resolveKey names u ≠ k := by
      rcases h with h | h
      · exact h
      · exact h ▸ hk
    cases hl : lookupKey store (resolveKey names u) with
    | none => rfl
    | some ph => exact lookupKey_setKey_ne _ _ _ _ hne

theorem keysOf_applyUpdate (names : List String) (store : List (String × Placeholder))
    (u : StructuredUpdate) : keysOf (applyUpdate names store u) = keysOf store := by
  unfold applyUpdate
  by_cases hk : resolveKey names u = ""
  · simp [hk]
  · simp only [hk, if_false]
    cases hl : lookupKey store (resolveKey names u) with
    | none => rfl
    | some ph => exact keysOf_setKey _ _ _ (by simp [hl])

theorem keysOf_applyStructuredUpdates (names : List String)
    (store : List (String × Placeholder)) (us : List StructuredUpdate) :
    keysOf (applyStructuredUpdates names store us) = keysOf store := by
  induction us generalizing store with
  | nil => rfl
  | cons u rest ih =>
      simpa [applyStructuredUpdates, keysOf_applyUpdate] using
        (ih (applyUpdate names store u)).trans (keysOf_applyUpdate names store u)

theorem lookupKey_applyStructuredUpdates_none (names : List String)
    (store : List (String × Placeholder)) (us : List StructuredUpdate) (k : String)
    (h : lookupKey store k = none) :
    lookupKey (applyStructuredUpdates names store us) k = none := by
  induction us generalizing store with
  | nil => exact h
  | cons u rest ih =>
      apply ih
      unfold applyUpdate
      by_cases hk : resolveKey names u = ""
      · simp [hk, h]
      · simp only [hk, if_false]
        by_cases hke : resolveKey names u = k
        · simp [hke, h]
        · cases hl : lookupKey store (resolveKey names u) with
          | none => exact h
          | some ph => exact (lookupKey_setKey_ne _ _ _ _ hke).trans h

theorem lookupKey_applyStructuredUpdates (names : List String)
    (store : List (String × Placeholder)) (us : List StructuredUpdate) (k : String)
    (ph : Placeholder) (h : lookupKey store k = some ph) :
    lookupKey (applyStructuredUpdates names store us) k =
      some { ph with value := (lastWinnerValue names k us).getD ph.value } := by
  induction us generalizing store ph with
  | nil => simpa [applyStructuredUpdates, lastWinnerValue] using h
  | cons u rest ih =>
      by_cases hit : resolveKey names u = k ∧ k ≠ ""
      · have hstep : lookupKey (applyUpdate names store u) k =
            some { ph with value := (u.value).getD "" } := by
          unfold applyUpdate
          simp only [hit.1, hit.2, if_neg hit.2, h]
          exact lookupKey_setKey_self _ _ _
        have := ih (applyUpdate names store u) { ph with value := (u.value).getD "" } hstep
        rw [applyStructuredUpdates] at *
        simp only [List.foldl_cons] at *
        rw [this]
        cases hw : lastWinnerValue names k rest with
        | none => simp [lastWinnerValue, hw, hit]
        | some v => simp [lastWinnerValue, hw]
      · have hstep : lookupKey (applyUpdate names store u) k = some ph := by
          rw [applyUpdate_frame]
          · exact h
          · by_cases hk : k = ""
            · exact Or.inr hk
            · exact Or.inl (fun he => hit ⟨he, hk⟩)
        have := ih (applyUpdate names store u) ph hstep
        rw [applyStructuredUpdates] at *
        simp only [List.foldl_cons] at *
        rw [this]
        cases hw : lastWinnerValue names k rest with
        | none => simp [lastWinnerValue, hw, hit]
        | some v => simp [lastWinnerValue, hw]

theorem mem_of_lookupKey_eq_some {α : Type} {l : List (String × α)} {k : String} {v : α}
    (h : lookupKey l k = some v) : (k, v) ∈ l := by
  induction l with
  | nil => simp [lookupKey] at h
  | cons e rest ih =>
      obtain ⟨k₀, v₀⟩ := e
      by_cases h0 : k₀ = k
      · subst h0
        have h' : v₀ = v := by simpa [lookupKey] using h
        subst h'
        exact List.mem_cons_self _ _
      · simp only [lookupKey, h0, if_false] at h
        exact List.mem_cons_of_mem _ (ih h)

theorem lookupKey_eq_none_forall {α : Type} {l : List (String × α)} {k : String}
    (h : lookupKey l k = none) : ∀ e ∈ l, e.1 ≠ k := by
  induction l with
  | nil => simp
  | cons e rest ih =>
      obtain ⟨k₀, v₀⟩ := e
      by_cases h0 : k₀ = k
      · simp [lookupKey, h0] at h
      · simp only [lookupKey, h0, if_false] at h
        intro e he
        rcases List.mem_cons.mp he with he | he
        · simpa [he] using h0
        · exact ih h e he

/-! ### Chat-callback draft-loop lemma -/

theorem lookupKey_chatDraftsLoop (names : List String) (us : List StructuredUpdate)
    (d : List (String × String)) (k : String) :
    lookupKey (us.foldl (chatDraftStep names) d) k =
      match lastWinnerValue names k us with
      | some v => some v
      | none => lookupKey d k := by
  induction us generalizing d with
  | nil => rfl
  | cons u rest ih =>
      simp only [List.foldl_cons]
      by_cases hit : resolveKey names u = k ∧ k ≠ ""
      · have hstep : chatDraftStep names d u = setKey d k ((u.value).getD "") := by
          unfold chatDraftStep
          simp [hit.1, hit.2]
        rw [hstep, ih]
        cases hw : lastWinnerValue names k rest with
        | none => simp [lastWinnerValue, hw, hit, lookupKey_setKey_self]
        | some v => simp [lastWinnerValue, hw]
      · have hstep : lookupKey (chatDraftStep names d u) k = lookupKey d k := by
          unfold chatDraftStep
          by_cases hk0 : resolveKey names u = ""
          · simp [hk0]
          · have hne : resolveKey names u ≠ k := fun he => hit ⟨he, fun hke => hk0 (hke ▸ he)⟩
            simp [hk0, lookupKey_setKey_ne _ _ _ _ hne]
        rw [ih, hstep]
        cases hw : lastWinnerValue names k rest with
        | none => simp [lastWinnerValue, hw, hit]
        | some v => simp [lastWinnerValue, hw]

/-! ### Reconciliation lemmas -/

theorem reconcileGo_append (phs : List (String × Placeholder))
    (drafts : List (String × String)) (a b : List (String × Placeholder))
    (merged : List (String × String)) :
    reconcileGo phs drafts (a ++ b) merged =
      reconcileGo phs drafts b (reconcileGo phs drafts a merged) := by
  induction a generalizing merged with
  | nil => rfl
  | cons e rest ih => simp [reconcileGo, ih]

theorem lookupKey_reconcileGo_frame (phs : List (String × Placeholder))
    (drafts : List (String × String)) (entries : List (String × Placeholder))
    (merged : List (String × String)) (k : String) (h : ∀ e ∈ entries, e.1 ≠ k) :
    lookupKey (reconcileGo phs drafts entries merged) k = lookupKey merged k := by
  induction entries generalizing merged with
  | nil => rfl
  | cons e rest ih =>
      rw [reconcileGo, ih _ (fun e' he' => h e' (List.mem_cons_of_mem _ he'))]
      unfold reconcileStep
      split
      · exact lookupKey_setKey_ne _ _ _ _ (h e (List.mem_cons_self _ _))
      · rfl

theorem lookupKey_reconcileGo_split (phs : List (String × Placeholder))
    (drafts : List (String × String)) (l1 l2 : List (String × Placeholder))
    (k : String) (ph : Placeholder) (merged : List (String × String))
    (hk1 : ∀ e ∈ l1, e.1 ≠ k) (hk2 : ∀ e ∈ l2, e.1 ≠ k)
    (hm : lookupKey phs k = some ph) :
    lookupKey (reconcileGo phs drafts (l1 ++ (k, ph) :: l2) merged) k =
      if (lookupKey drafts k).isNone ∨ (lookupKey drafts k).getD "" = ph.value
      then some ph.value else lookupKey merged k := by
  rw [show ((k, ph) :: l2) = [(k, ph)] ++ l2 from rfl, reconcileGo_append, reconcileGo_append,
    lookupKey_reconcileGo_frame _ _ _ _ _ hk2]
  rw [show reconcileGo phs drafts [(k, ph)] (reconcileGo phs drafts l1 merged)
        = reconcileStep phs drafts (reconcileGo phs drafts l1 merged) (k, ph) from rfl]
  unfold reconcileStep
  simp only [hm, Option.map_some', Option.getD_some]
  by_cases hc : (lookupKey drafts k).isNone = true ∨ (lookupKey drafts k).getD "" = ph.value
  · rw [if_pos hc, if_pos hc, lookupKey_setKey_self]
  · rw [if_neg hc, if_neg hc, lookupKey_reconcileGo_frame _ _ _ _ _ hk1]

theorem lookupKey_reconcileDrafts (phs : List (String × Placeholder))
    (drafts : List (String × String)) (k : String) (ph : Placeholder)
    (hnd : (keysOf phs).Nodup) (hm : lookupKey phs k = some ph) :
    lookupKey (reconcileDrafts phs drafts) k =
      if (lookupKey drafts k).isNone ∨ (lookupKey drafts k).getD "" = ph.value
      then some ph.value else lookupKey drafts k := by
  obtain ⟨l1, l2, hsplit⟩ := List.append_of_mem (mem_of_lookupKey_eq_some hm)
  have hnd' : (keysOf l1 ++ k :: keysOf l2).Nodup := by
    simpa [hsplit, keysOf] using hnd
  have hk1 : ∀ e ∈ l1, e.1 ≠ k := by
    intro e he heq
    have hmem : k ∈ keysOf l1 := heq ▸ List.mem_map.mpr ⟨e, he, rfl⟩
    exact (List.nodup_append.mp hnd').2.2 hmem (List.mem_cons_self _ _)
  have hk2 : ∀ e ∈ l2, e.1 ≠ k := by
    intro e he heq
    have hmem : k ∈ keysOf l2 := heq ▸ List.mem_map.mpr ⟨e, he, rfl⟩
    exact (List.nodup_cons.mp (List.nodup_append.mp hnd').2.1).1 hmem
  rw [reconcileDrafts]
  conv_lhs => rw [hsplit]
  exact lookupKey_reconcileGo_split _ _ _ _ _ _ _ hk1 hk2 (hsplit ▸ hm)

theorem lookupKey_reconcileDrafts_none (phs : List (String × Placeholder))
    (drafts : List (String × String)) (k : String) (hm : lookupKey phs k = none) :
    lookupKey (reconcileDrafts phs drafts) k = lookupKey drafts k :=
  lookupKey_reconcileGo_frame _ _ _ _ _ (lookupKey_eq_none_forall hm)

theorem lastWinnerValue_eq_none (names : List String) (k : String)
    (us : List StructuredUpdate) (h : ∀ u ∈ us, resolveKey names u ≠ k) :
    lastWinnerValue names k us = none := by
  induction us with
  | nil => rfl
  | cons u rest ih =>
      rw [lastWinnerValue, ih (fun u' hu' => h u' (List.mem_cons_of_mem _ hu'))]
      simp [h u (List.mem_cons_self _ _)]

/-! ### Binder lemmas -/

theorem tagsOf_renameGo (names : List String) (j : Nat) (doc : List DocPart) :
    tagsOf (renameGo names j doc) =
      (List.range (numTags doc)).map (fun t => resolveName names (j + t)) := by
  induction doc generalizing j with
  | nil => rfl
  | cons p rest ih =>
      cases p with
      | text s => simpa [renameGo, tagsOf, numTags] using ih j
      | tag r =>
          simp only [renameGo, tagsOf, List.filterMap_cons, numTags] at *
          rw [ih (j + 1)]
          simp only [List.length_cons, List.range_succ_eq_map, List.map_cons, List.map_map]
          congr 1
          apply List.map_congr_left
          intro a _
          simp only [Function.comp]
          congr 1
          omega

theorem tagsOf_renameDocxByOccurrence (names : List String) (doc : List DocPart) :
    tagsOf (renameDocxByOccurrence names doc) =
      (List.range (numTags doc)).map (resolveName names) := by
  simpa using tagsOf_renameGo names 0 doc

/-! ### Claim theorems -/

/-- C10: `applyStructuredUpdates` is a frame-respecting batch update: an empty
batch is the identity; the key set of the store never changes; a key no record
of the batch resolves to keeps its entire placeholder record (name,
description, committed value); every key keeps its name and description, only
the `value` field ever changes; and when several records resolve to the same
key the last one's value wins. -/
theorem applyStructuredUpdates_frame_props (names : List String)
    (store : List (String × Placeholder)) (us : List StructuredUpdate) :
    applyStructuredUpdates names store [] = store
    ∧ keysOf (applyStructuredUpdates names store us) = keysOf store
    ∧ (∀ k, (∀ u ∈ us, resolveKey names u ≠ k) →
        lookupKey (applyStructuredUpdates names store us) k = lookupKey store k)
    ∧ (∀ k ph, lookupKey store k = some ph →
        lookupKey (applyStructuredUpdates names store us) k =
          some { ph with value := (lastWinnerValue names k us).getD ph.value }) := by
  refine ⟨rfl, keysOf_applyStructuredUpdates names store us, ?_, ?_⟩
  · intro k hk
    cases hl : lookupKey store k with
    | none => exact lookupKey_applyStructuredUpdates_none names store us k hl
    | some ph =>
        rw [lookupKey_applyStructuredUpdates names store us k ph hl,
          lastWinnerValue_eq_none names k us hk]
        rfl
  · intro k ph hl
    exact lookupKey_applyStructuredUpdates names store us k ph hl

/-- C10 witness. -/
theorem applyStructuredUpdates_frame_props_witness :
    lookupKey [("a", (⟨"a", "d", "x"⟩ : Placeholder))] "a" = some ⟨"a", "d", "x"⟩
    ∧ lookupKey
        (applyStructuredUpdates ["a"] [("a", ⟨"a", "d", "x"⟩)]
          [⟨some "a", none, some "v1"⟩, ⟨some "a", none, some "v2"⟩]) "a"
        = some ⟨"a", "d",
            (lastWinnerValue ["a"] "a"
              [⟨some "a", none, some "v1"⟩, ⟨some "a", none, some "v2"⟩]).getD "x"⟩ :=
  ⟨by decide,
    (applyStructuredUpdates_frame_props ["a"] [("a", ⟨"a", "d", "x"⟩)]
      [⟨some "a", none, some "v1"⟩, ⟨some "a", none, some "v2"⟩]).2.2.2 "a"
      ⟨"a", "d", "x"⟩ (by decide)⟩

/-- C2: update resolution. A record whose `name` trims to a non-blank string
uses that trimmed name as the key, and when such a key is in the store the
record rewrites exactly that key's value; otherwise a numeric `order` with
`1 ≤ order ≤ orderedNames.length` resolves to `orderedNames[order-1]`; a
record whose resolved key is not a key of the store (out of range, absent, or
unknown) is a no-op, and a no-op record never stops the rest of the batch. -/
theorem updateResolution (names : List String) (store : List (String × Placeholder)) :
    (∀ u n, u.name = some n → strTrim n ≠ "" → resolveKey names u = strTrim n)
    ∧ (∀ u n, u.name = some n → strTrim n ≠ "" → ∀ ph,
        lookupKey store (strTrim n) = some ph →
        applyUpdate names store u =
          setKey store (strTrim n) { ph with value := (u.value).getD "" })
    ∧ (∀ u o, (u.name = none ∨ ∃ n, u.name = some n ∧ strTrim n = "") →
        u.order = some o → 1 ≤ o → o ≤ (names.length : Int) →
        ∀ h : (o - 1).toNat < names.length,
          resolveKey names u = names.get ⟨(o - 1).toNat, h⟩)
    ∧ (∀ u, lookupKey store (resolveKey names u) = none → applyUpdate names store u = store)
    ∧ (∀ u, resolveKey names u = "" → applyUpdate names store u = store)
    ∧ (∀ u rest, applyUpdate names store u = store →
        applyStructuredUpdates names store (u :: rest) =
          applyStructuredUpdates names store rest) := by
  refine ⟨?_, ?_, ?_, ?_, ?_, ?_⟩
  · intro u n hn ht
    unfold resolveKey
    simp [hn, ht]
  · intro u n hn ht ph hl
    have hres : resolveKey names u = strTrim n := by unfold resolveKey; simp [hn, ht]
    unfold applyUpdate
    simp [hres, ht, hl]
  · intro u o hblank ho h1 h2 h
    have hkey0 : strTrim ((u.name).getD "") = "" := by
      rcases hblank with hb | ⟨n, hn, ht⟩
      · simp [hb, strTrim]
      · simp [hn, ht]
    have hres : resolveKey names u =
        (if 1 ≤ o ∧ o ≤ (names.length : Int) then (names[(o - 1).toNat]?).getD "" else "") := by
      unfold resolveKey
      simp only [hkey0, ho, reduceIte]
    rw [hres, if_pos ⟨h1, h2⟩, List.getElem?_eq_getElem h]
    simp [List.get_eq_getElem]
  · intro u hl
    unfold applyUpdate
    by_cases hk : resolveKey names u = ""
    · simp [hk]
    · simp [hk, hl]
  · intro u hk
    unfold applyUpdate
    simp [hk]
  · intro u rest hnoop
    rw [applyStructuredUpdates, List.foldl_cons, hnoop]
    rfl

/-- C2 witness: `order: 2` with names `[a,b,c]` resolves to `b`; `order: 5`
and an unknown name are no-ops that do not stop the batch. -/
theorem updateResolution_witness :
    resolveKey ["a", "b", "c"] ⟨none, some 2, some "v"⟩ = "b"
    ∧ applyUpdate ["a", "b", "c"] [("a", ⟨"a", "", ""⟩)] ⟨none, some 5, some "v"⟩
        = [("a", ⟨"a", "", ""⟩)]
    ∧ applyStructuredUpdates ["a", "b", "c"] [("a", ⟨"a", "", ""⟩)]
        [⟨none, some 5, some "v"⟩, ⟨some "a", none, some "w"⟩]
        = applyStructuredUpdates ["a", "b", "c"] [("a", ⟨"a", "", ""⟩)]
            [⟨some "a", none, some "w"⟩] := by
  have h := updateResolution ["a", "b", "c"] [("a", ⟨"a", "", ""⟩)]
  refine ⟨?_, ?_, ?_⟩
  · have := h.2.2.1 ⟨none, some 2, some "v"⟩ 2 (Or.inl rfl) rfl (by decide) (by decide)
      (by decide)
    simpa using this
  · exact h.2.2.2.1 ⟨none, some 5, some "v"⟩ (by decide)
  · exact h.2.2.2.2.2 ⟨none, some 5, some "v"⟩ [⟨some "a", none, some "w"⟩]
      (h.2.2.2.1 ⟨none, some 5, some "v"⟩ (by decide))

/-- C3: occurrence binding. In the rewritten document the i-th encountered
raw token carries the i-th canonical name — `names[i]` when `i` is within the
canonical-name list, and the synthetic fallback
`"placeholder_" ++ String(i+1).padStart(3, "0")` beyond it — and the bytes
emitted in its place are that name re-wrapped in the delimiter pair. -/
theorem occurrenceBinding (doc : List DocPart) (names : List String) (i : Nat)
    (h : i < numTags doc) :
    (tagsOf (renameDocxByOccurrence names doc))[i]? = some (resolveName names i)
    ∧ (∀ hi : i < names.length, resolveName names i = names.get ⟨i, hi⟩)
    ∧ (names.length ≤ i →
        resolveName names i = "placeholder_" ++ padStart3 (natToString (i + 1)))
    ∧ partBytes (DocPart.tag (resolveName names i)) = "[" ++ resolveName names i ++ "]" := by
  refine ⟨?_, ?_, ?_, rfl⟩
  · rw [tagsOf_renameDocxByOccurrence]
    simp [List.getElem?_map, List.getElem?_range h]
  · intro hi
    unfold resolveName
    simp [List.getElem?_eq_getElem hi]
  · intro hi
    unfold resolveName fallbackName
    simp [List.getElem?_eq_none hi]

/-- C3 witness: a three-token document with two canonical names. -/
theorem occurrenceBinding_witness :
    2 < numTags [DocPart.tag "X", DocPart.text "t", DocPart.tag "X", DocPart.tag "Y"]
    ∧ (tagsOf (renameDocxByOccurrence ["a", "b"]
        [DocPart.tag "X", DocPart.text "t", DocPart.tag "X", DocPart.tag "Y"]))[2]?
        = some (resolveName ["a", "b"] 2)
    ∧ resolveName ["a", "b"] 2 = "placeholder_" ++ padStart3 (natToString 3) :=
  ⟨by decide,
    (occurrenceBinding [DocPart.tag "X", DocPart.text "t", DocPart.tag "X", DocPart.tag "Y"]
      ["a", "b"] 2 (by decide)).1,
    (occurrenceBinding [DocPart.tag "X", DocPart.text "t", DocPart.tag "X", DocPart.tag "Y"]
      ["a", "b"] 2 (by decide)).2.2.1 (by decide)⟩

theorem lookupKey_downloadData_of_not_mem (store : List (String × Placeholder))
    (t : String) (h : ∀ e ∈ store, e.1 ≠ t) :
    lookupKey (downloadData store) t = none := by
  induction store with
  | nil => rfl
  | cons e rest ih =>
      obtain ⟨k, ph⟩ := e
      have hk : k ≠ t := h (k, ph) (List.mem_cons_self _ _)
      by_cases hv : strTrim ph.value ≠ "" <;>
        simp [downloadData, List.filterMap_cons, hv, lookupKey, hk] <;>
        simpa [downloadData] using ih (fun e he => h e (List.mem_cons_of_mem _ he))

/-- C6: the preview scope (which maps a blank post-trim value to the
re-wrapped tag) and the download scope (which omits blank values so the
`nullGetter` produces the re-wrapped tag) induce the same substitution for
every tag: the two code paths render identically. -/
theorem previewDownloadEquiv (store : List (String × Placeholder))
    (hnd : (keysOf store).Nodup) (t : String) :
    renderSubst (previewData store) t = renderSubst (downloadData store) t := by
  induction store with
  | nil => rfl
  | cons e rest ih =>
      obtain ⟨k, ph⟩ := e
      simp only [keysOf, List.map_cons, List.nodup_cons] at hnd
      by_cases ht : k = t
      · subst ht
        by_cases hv : strTrim ph.value ≠ ""
        · simp [renderSubst, previewData, downloadData, List.filterMap_cons, hv, lookupKey]
        · have hrest : ∀ e ∈ rest, e.1 ≠ k := by
            intro e he heq
            exact hnd.1 (heq ▸ List.mem_map.mpr ⟨e, he, rfl⟩)
          have hnone : lookupKey (downloadData rest) k =
              none := lookupKey_downloadData_of_not_mem rest k hrest
          have hv' : strTrim ph.value = "" := of_not_not (by simpa using hv)
          have h1 : previewData ((k, ph) :: rest) = (k, wrap k) :: previewData rest := by
            simp [previewData, hv']
          have h2 : downloadData ((k, ph) :: rest) = downloadData rest := by
            simp [downloadData, List.filterMap_cons, hv']
          simp [renderSubst, h1, h2, hnone, lookupKey]
          exact fun hc => absurd hv' hc
      · have hpl : lookupKey (previewData ((k, ph) :: rest)) t =
            lookupKey (previewData rest) t := by
          simp [previewData, lookupKey, ht]
        have hdl : lookupKey (downloadData ((k, ph) :: rest)) t =
            lookupKey (downloadData rest) t := by
          by_cases hv : strTrim ph.value ≠ "" <;>
            simp [downloadData, List.filterMap_cons, lookupKey, ht, hv]
        simp only [renderSubst, hpl, hdl]
        have := ih hnd.2
        simpa [renderSubst] using this

/-- C6 witness: a store with one filled, one blank-valued, plus an unknown
tag. -/
theorem previewDownloadEquiv_witness :
    (keysOf [("a", (⟨"a", "", " v "⟩ : Placeholder)), ("b", ⟨"b", "", "  "⟩)]).Nodup
    ∧ renderSubst (previewData [("a", ⟨"a", "", " v "⟩), ("b", ⟨"b", "", "  "⟩)]) "b"
        = renderSubst (downloadData [("a", ⟨"a", "", " v "⟩), ("b", ⟨"b", "", "  "⟩)]) "b" :=
  ⟨by decide,
    previewDownloadEquiv [("a", ⟨"a", "", " v "⟩), ("b", ⟨"b", "", "  "⟩)] (by decide) "b"⟩

/-- C8 counterexample: with a previously rendered view present and a failing
engine, the view after the effect is empty — the previously rendered preview
view does not remain visible, refuting the retention part of the claim. -/
theorem renderFailureRetention_cex :
    (previewEffect (fun _ => Except.error "boom")
        ⟨[("a", ⟨"a", "", ""⟩)], [("a", "")], some "oldView", []⟩).view ≠ some "oldView"
    ∧ (previewEffect (fun _ => Except.error "boom")
        ⟨[("a", ⟨"a", "", ""⟩)], [("a", "")], some "oldView", []⟩).view = none := by
  exact ⟨by decide, rfl⟩

/-- C8 (amended): a templating-engine failure while materializing the preview
is caught at the operation boundary and surfaced as a user-visible render
error; the placeholder store and the draft map are unchanged; but since the
effect clears the preview node before regenerating, after a failure the view
is empty rather than the previously rendered view. -/
theorem renderFailureHandling (engine : List (String × String) → Except String String)
    (ps : PreviewState) (msg : String)
    (h : engine (previewData ps.placeholders) = Except.error msg) :
    (previewEffect engine ps).placeholders = ps.placeholders
    ∧ (previewEffect engine ps).draftValues = ps.draftValues
    ∧ (previewEffect engine ps).toasts = ps.toasts ++ ["Preview error: " ++ msg]
    ∧ (previewEffect engine ps).view = none := by
  unfold previewEffect
  rw [h]
  exact ⟨rfl, rfl, rfl, rfl⟩

/-- C8 witness. -/
theorem renderFailureHandling_witness :
    ((fun _ => (Except.error "boom" : Except String String))
        (previewData [("a", (⟨"a", "", ""⟩ : Placeholder))])
        = Except.error "boom")
    ∧ (previewEffect (fun _ => (Except.error "boom" : Except String String))
        ⟨[("a", ⟨"a", "", ""⟩)], [("a", "x")], some "oldView", []⟩).draftValues
        = [("a", "x")] :=
  ⟨rfl,
    (renderFailureHandling (fun _ => (Except.error "boom" : Except String String))
      ⟨[("a", ⟨"a", "", ""⟩)], [("a", "x")], some "oldView", []⟩ "boom" rfl).2.1⟩

/-! ### `applyOne` lemmas -/

theorem applyOneLocal_placeholders (name : String) (st : EditorState) :
    (applyOneLocal name st).placeholders =
      applyStructuredUpdates st.orderedNames st.placeholders
        [{ name := some name, order := none,
           value := some ((lookupKey st.draftValues name).getD "") }] := rfl

theorem applyOneLocal_draftValues (name : String) (st : EditorState) :
    (applyOneLocal name st).draftValues =
      reconcileDrafts (applyOneLocal name st).placeholders
        (setKey st.draftValues name ((lookupKey st.draftValues name).getD "")) := rfl

theorem resolveKey_applyOne (names : List String) (name : String) (v : String)
    (htrim : strTrim name = name) :
    resolveKey names { name := some name, order := none, value := some v } = name := by
  unfold resolveKey
  by_cases hne : name = ""
  · simp only [Option.getD_some, htrim, hne, if_pos rfl]
    rfl
  · simp [htrim, hne]

/-- Core behaviour of `applyOne` at its own key, for a trim-invariant
non-empty key present in the store. -/
theorem applyOneLocal_at_key (st : EditorState) (name : String) (ph : Placeholder)
    (hnd : (keysOf st.placeholders).Nodup)
    (hm : lookupKey st.placeholders name = some ph) (htrim : strTrim name = name)
    (hne : name ≠ "") :
    lookupKey (applyOneLocal name st).placeholders name
        = some { ph with value := draftAt st name }
    ∧ draftAt (applyOneLocal name st) name = draftAt st name
    ∧ (keysOf (applyOneLocal name st).placeholders).Nodup := by
  have hres := resolveKey_applyOne st.orderedNames name
    ((lookupKey st.draftValues name).getD "") htrim
  have hlwv : lastWinnerValue st.orderedNames name
      [{ name := some name, order := none,
         value := some ((lookupKey st.draftValues name).getD "") }]
      = some ((lookupKey st.draftValues name).getD "") := by
    simp [lastWinnerValue, hres, hne]
  have hph : lookupKey (applyOneLocal name st).placeholders name
      = some { ph with value := draftAt st name } := by
    rw [applyOneLocal_placeholders,
      lookupKey_applyStructuredUpdates _ _ _ _ ph hm, hlwv]
    rfl
  have hknd : (keysOf (applyOneLocal name st).placeholders).Nodup := by
    rw [applyOneLocal_placeholders, keysOf_applyStructuredUpdates]
    exact hnd
  refine ⟨hph, ?_, hknd⟩
  have hd1 : lookupKey (setKey st.draftValues name ((lookupKey st.draftValues name).getD ""))
      name = some ((lookupKey st.draftValues name).getD "") := lookupKey_setKey_self _ _ _
  rw [draftAt, applyOneLocal_draftValues,
    lookupKey_reconcileDrafts _ _ name { ph with value := draftAt st name } hknd hph]
  rw [if_pos]
  · rfl
  · right
    rw [hd1]
    rfl

/-- C7 counterexample: for a name that is not a key of the placeholder store,
applying does not set the committed value to the current draft — the store
update is a silent no-op — refuting the universally quantified claim. -/
theorem applyLocalFirst_cex :
    draftAt ⟨[], [], [("x", "v")]⟩ "x" = "v"
    ∧ committedAt (applyOneLocal "x" ⟨[], [], [("x", "v")]⟩) "x" ≠ "v" := by
  exact ⟨rfl, by decide⟩

/-- C7 (amended): for every trim-invariant non-empty name that is a key of
the placeholder store, applying sets the committed value to the current draft
and the draft to itself, and this local commit is the same whatever the
remote-sync outcome — in particular a failed sync is reported as a toast and
does not roll the local state back. -/
theorem applyLocalFirst (st : EditorState) (name : String) (ph : Placeholder)
    (hnd : (keysOf st.placeholders).Nodup)
    (hm : lookupKey st.placeholders name = some ph) (htrim : strTrim name = name)
    (hne : name ≠ "") :
    (∀ sync, (applyOneWith name sync st).1 = applyOneLocal name st)
    ∧ committedAt (applyOneLocal name st) name = draftAt st name
    ∧ draftAt (applyOneLocal name st) name = draftAt st name
    ∧ (applyOneWith name SyncOutcome.failed st).2 = ["Update failed"] := by
  obtain ⟨hph, hdr, _⟩ := applyOneLocal_at_key st name ph hnd hm htrim hne
  refine ⟨fun _ => rfl, ?_, hdr, rfl⟩
  rw [committedAt, hph]
  rfl

/-- C7 witness. -/
theorem applyLocalFirst_witness :
    lookupKey ([("a", (⟨"a", "", "old"⟩ : Placeholder))]) "a" = some ⟨"a", "", "old"⟩
    ∧ committedAt (applyOneLocal "a" ⟨["a"], [("a", ⟨"a", "", "old"⟩)], [("a", "new")]⟩) "a"
        = draftAt ⟨["a"], [("a", ⟨"a", "", "old"⟩)], [("a", "new")]⟩ "a" :=
  ⟨by decide,
    (applyLocalFirst ⟨["a"], [("a", ⟨"a", "", "old"⟩)], [("a", "new")]⟩ "a" ⟨"a", "", "old"⟩
      (by decide) (by decide) (by decide) (by decide)).2.1⟩

/-- C9 counterexample: for a name that is not a key of the placeholder store,
the dirty state after applying a non-empty draft is `true`, refuting the
universally quantified claim. -/
theorem applyIdempotence_cex :
    dirtyAt (applyOneLocal "x" ⟨[], [], [("x", "v")]⟩) "x" := by
  decide

/-- C9 (amended): for every trim-invariant non-empty name that is a key of
the placeholder store, applying the name's draft twice in succession yields
the same committed value as applying it once, and after each of the two
applications the name's dirty state is false. -/
theorem applyIdempotence (st : EditorState) (name : String) (ph : Placeholder)
    (hnd : (keysOf st.placeholders).Nodup)
    (hm : lookupKey st.placeholders name = some ph) (htrim : strTrim name = name)
    (hne : name ≠ "") :
    committedAt (applyOneLocal name (applyOneLocal name st)) name
        = committedAt (applyOneLocal name st) name
    ∧ ¬ dirtyAt (applyOneLocal name st) name
    ∧ ¬ dirtyAt (applyOneLocal name (applyOneLocal name st)) name := by
  obtain ⟨hph1, hdr1, hnd1⟩ := applyOneLocal_at_key st name ph hnd hm htrim hne
  obtain ⟨hph2, hdr2, _⟩ := applyOneLocal_at_key (applyOneLocal name st) name
    { ph with value := draftAt st name } hnd1 hph1 htrim hne
  have hc1 : committedAt (applyOneLocal name st) name = draftAt st name := by
    rw [committedAt, hph1]; rfl
  have hc2 : committedAt (applyOneLocal name (applyOneLocal name st)) name
      = draftAt (applyOneLocal name st) name := by
    rw [committedAt, hph2]; rfl
  refine ⟨?_, ?_, ?_⟩
  · rw [hc2, hdr1, hc1]
  · rw [dirtyAt, hc1, hdr1]
    simp
  · rw [dirtyAt, hc2, hdr2]
    simp

/-- C9 witness. -/
theorem applyIdempotence_witness :
    lookupKey ([("a", (⟨"a", "", "old"⟩ : Placeholder))]) "a" = some ⟨"a", "", "old"⟩
    ∧ ¬ dirtyAt (applyOneLocal "a" ⟨["a"], [("a", ⟨"a", "", "old"⟩)], [("a", "new")]⟩) "a" :=
  ⟨by decide,
    (applyIdempotence ⟨["a"], [("a", ⟨"a", "", "old"⟩)], [("a", "new")]⟩ "a" ⟨"a", "", "old"⟩
      (by decide) (by decide) (by decide) (by decide)).2.1⟩

/-! ### Reconciliation safety (C1) -/

/-- Reachable-state invariant: every store key has a draft entry (uploads seed
the drafts from the store, and every flow preserves this). -/
def draftsCover (st : EditorState) : Prop :=
  ∀ e ∈ st.placeholders, (lookupKey st.draftValues e.1).isSome = true

instance (st : EditorState) : Decidable (draftsCover st) := by
  unfold draftsCover
  infer_instance

theorem lastWinnerValue_empty (names : List String) (us : List StructuredUpdate) :
    lastWinnerValue names "" us = none := by
  induction us with
  | nil => rfl
  | cons u rest ih => rw [lastWinnerValue, ih]; simp

theorem lastWinnerValue_single (names : List String) (k : String) (u : StructuredUpdate) :
    lastWinnerValue names k [u] =
      if resolveKey names u = k ∧ k ≠ "" then some ((u.value).getD "") else none := rfl

theorem applyStructuredUpdates_lookup_of_no_winner (names : List String)
    (store : List (String × Placeholder)) (us : List StructuredUpdate) (k : String)
    (hw : lastWinnerValue names k us = none) :
    lookupKey (applyStructuredUpdates names store us) k = lookupKey store k := by
  cases h : lookupKey store k with
  | none => exact lookupKey_applyStructuredUpdates_none names store us k h
  | some ph =>
      rw [lookupKey_applyStructuredUpdates names store us k ph h, hw]
      rfl

/-- When neither the committed entry of `k` nor its draft entry changed
between `(phs0, d0)` and `(phs1, d1)`, reconciliation leaves a dirty draft
untouched and resyncs a clean draft to the (unchanged) committed value. -/
theorem reconcile_nochange (phs0 phs1 : List (String × Placeholder))
    (d0 d1 : List (String × String)) (k : String)
    (hnd1 : (keysOf phs1).Nodup)
    (hph : lookupKey phs1 k = lookupKey phs0 k)
    (hd : lookupKey d1 k = lookupKey d0 k)
    (hcovk : (lookupKey phs0 k).isSome = true → (lookupKey d0 k).isSome = true) :
    ((lookupKey d0 k).getD "" ≠ ((lookupKey phs0 k).map Placeholder.value).getD "" →
        (lookupKey (reconcileDrafts phs1 d1) k).getD "" = (lookupKey d0 k).getD "")
    ∧ ((lookupKey d0 k).getD "" = ((lookupKey phs0 k).map Placeholder.value).getD "" →
        (lookupKey (reconcileDrafts phs1 d1) k).getD ""
          = ((lookupKey phs1 k).map Placeholder.value).getD "") := by
  cases hp0 : lookupKey phs0 k with
  | none =>
      have hp1 : lookupKey phs1 k = none := by rw [hph, hp0]
      have hrec := lookupKey_reconcileDrafts_none phs1 d1 k hp1
      constructor
      · intro _
        rw [hrec, hd]
      · intro hclean
        rw [hrec, hd, hp1]
        simpa [hp0] using hclean
  | some ph =>
      have hp1 : lookupKey phs1 k = some ph := by rw [hph, hp0]
      have hrec := lookupKey_reconcileDrafts phs1 d1 k ph hnd1 hp1
      constructor
      · intro hdirty
        have hcv : (lookupKey d0 k).isSome = true := hcovk (by simp [hp0])
        obtain ⟨dv, hdv⟩ := Option.isSome_iff_exists.mp hcv
        rw [hrec, if_neg, hd]
        rintro (h1 | h2)
        · rw [hd, hdv] at h1
          simp at h1
        · rw [hd] at h2
          exact hdirty (by simpa [hp0] using h2)
      · intro hclean
        rw [hrec, if_pos, hp1]
        · simp
        · right
          rw [hd]
          simpa [hp0] using hclean

/-- `applyOne` leaves the applied name's draft at its previous value (it is
rewritten to itself, and the reconciliation effect preserves it). -/
theorem applyOneLocal_draftAt_name (st : EditorState) (name : String)
    (hnd : (keysOf st.placeholders).Nodup) (htrim : strTrim name = name) :
    draftAt (applyOneLocal name st) name = draftAt st name := by
  have hnd1 : (keysOf (applyOneLocal name st).placeholders).Nodup := by
    rw [applyOneLocal_placeholders, keysOf_applyStructuredUpdates]
    exact hnd
  have hd1 : lookupKey
      (setKey st.draftValues name ((lookupKey st.draftValues name).getD "")) name
      = some ((lookupKey st.draftValues name).getD "") := lookupKey_setKey_self _ _ _
  cases hph : lookupKey st.placeholders name with
  | none =>
      have hp1 : lookupKey (applyOneLocal name st).placeholders name = none := by
        rw [applyOneLocal_placeholders]
        exact lookupKey_applyStructuredUpdates_none _ _ _ _ hph
      rw [draftAt, applyOneLocal_draftValues, lookupKey_reconcileDrafts_none _ _ _ hp1, hd1]
      rfl
  | some ph =>
      have hup := lookupKey_applyStructuredUpdates st.orderedNames st.placeholders
        [{ name := some name, order := none,
           value := some ((lookupKey st.draftValues name).getD "") }] name ph hph
      rw [← applyOneLocal_placeholders] at hup
      have hrec := lookupKey_reconcileDrafts (applyOneLocal name st).placeholders
        (setKey st.draftValues name ((lookupKey st.draftValues name).getD "")) name _ hnd1 hup
      rw [draftAt, applyOneLocal_draftValues, hrec]
      split
      · next hcnd =>
          rcases hcnd with h1 | h2
          · rw [hd1] at h1
            simp at h1
          · rw [hd1] at h2
            simp only [Option.getD_some] at h2 ⊢
            exact h2.symm
      · rw [hd1]
        rfl

/-- After a clean `applyOne`, the committed value at the applied name equals
the (unchanged) draft. -/
theorem applyOneLocal_committedAt_name_clean (st : EditorState) (name : String)
    (htrim : strTrim name = name) (hcl : ¬ dirtyAt st name) :
    committedAt (applyOneLocal name st) name = draftAt st name := by
  have hclean : draftAt st name = committedAt st name := of_not_not hcl
  have hres := resolveKey_applyOne st.orderedNames name
    ((lookupKey st.draftValues name).getD "") htrim
  cases hph : lookupKey st.placeholders name with
  | none =>
      have hp1 : lookupKey (applyOneLocal name st).placeholders name = none := by
        rw [applyOneLocal_placeholders]
        exact lookupKey_applyStructuredUpdates_none _ _ _ _ hph
      rw [committedAt, hp1]
      rw [committedAt, hph] at hclean
      simpa using hclean.symm
  | some ph =>
      have hup := lookupKey_applyStructuredUpdates st.orderedNames st.placeholders
        [{ name := some name, order := none,
           value := some ((lookupKey st.draftValues name).getD "") }] name ph hph
      rw [← applyOneLocal_placeholders] at hup
      rw [committedAt, hup]
      rw [committedAt, hph] at hclean
      simp only [Option.map_some', Option.getD_some] at hclean ⊢
      rw [lastWinnerValue_single]
      by_cases hne : name = ""
      · rw [if_neg (by simp [hne])]
        simpa using hclean.symm
      · rw [if_pos ⟨hres, hne⟩]
        rfl

/-- C1 counterexample: a dirty name (`draft "draftX"` vs `committed "old"`)
receives an external agent update; afterwards its draft is `"new"`, not the
untouched `"draftX"` the claim requires. -/
theorem reconcileMergeSafety_cex :
    dirtyAt ⟨["a"], [("a", ⟨"a", "", "old"⟩)], [("a", "draftX")]⟩ "a"
    ∧ draftAt (onChatResponse [⟨some "a", none, some "new"⟩]
        ⟨["a"], [("a", ⟨"a", "", "old"⟩)], [("a", "draftX")]⟩) "a"
        ≠ draftAt ⟨["a"], [("a", ⟨"a", "", "old"⟩)], [("a", "draftX")]⟩ "a" := by
  decide

/-- C1 (amended): on states whose store keys are duplicate-free and all
covered by draft entries:
(1) applying a trim-invariant name (`name.trim() === name`) behaves as the
claim states — every name whose draft differs from the old committed value
keeps its draft, and every clean name's draft is resynced to the new
committed value; trim-invariance is necessary: applying a name with
surrounding whitespace commits through the trimmed key and can leave that
key's previously clean draft stale;
(2) but an agent push via the chat callback unconditionally overwrites the
draft of every name some update of the batch resolves to (the last resolving
update wins), dirty or not;
(3) only names no update resolves to follow the original rule under the chat
callback: dirty drafts are untouched and clean drafts are resynced to the
(unchanged) committed value. -/
theorem reconcileMergeSafety (st : EditorState)
    (hnd : (keysOf st.placeholders).Nodup) (hcov : draftsCover st) :
    (∀ name, strTrim name = name →
      (∀ k, dirtyAt st k → draftAt (applyOneLocal name st) k = draftAt st k)
      ∧ (∀ k, ¬ dirtyAt st k →
          draftAt (applyOneLocal name st) k = committedAt (applyOneLocal name st) k))
    ∧ (∀ us k v, lastWinnerValue st.orderedNames k us = some v →
        draftAt (onChatResponse us st) k = v)
    ∧ (∀ us k, lastWinnerValue st.orderedNames k us = none →
        (dirtyAt st k → draftAt (onChatResponse us st) k = draftAt st k)
        ∧ (¬ dirtyAt st k →
            draftAt (onChatResponse us st) k = committedAt (onChatResponse us st) k)) := by
  have hcovk : ∀ k, (lookupKey st.placeholders k).isSome = true →
      (lookupKey st.draftValues k).isSome = true := by
    intro k h
    cases hl : lookupKey st.placeholders k with
    | none => rw [hl] at h; simp at h
    | some ph => exact hcov (k, ph) (mem_of_lookupKey_eq_some hl)
  refine ⟨?_, ?_, ?_⟩
  · intro name htrim
    have hres := resolveKey_applyOne st.orderedNames name
      ((lookupKey st.draftValues name).getD "") htrim
    have hnd1 : (keysOf (applyOneLocal name st).placeholders).Nodup := by
      rw [applyOneLocal_placeholders, keysOf_applyStructuredUpdates]
      exact hnd
    constructor
    · intro k hd
      by_cases hkn : k = name
      · rw [hkn, applyOneLocal_draftAt_name st name hnd htrim]
      · have hw : lastWinnerValue st.orderedNames k
            [{ name := some name, order := none,
               value := some ((lookupKey st.draftValues name).getD "") }] = none := by
          rw [lastWinnerValue_single, if_neg]
          rintro ⟨h1, _⟩
          exact hkn (by rw [← h1, hres])
        have hph : lookupKey (applyOneLocal name st).placeholders k
            = lookupKey st.placeholders k := by
          rw [applyOneLocal_placeholders]
          exact applyStructuredUpdates_lookup_of_no_winner _ _ _ _ hw
        have hdk : lookupKey
            (setKey st.draftValues name ((lookupKey st.draftValues name).getD "")) k
            = lookupKey st.draftValues k :=
          lookupKey_setKey_ne _ _ _ _ (fun h => hkn h.symm)
        have := (reconcile_nochange st.placeholders (applyOneLocal name st).placeholders
          st.draftValues _ k hnd1 hph hdk (hcovk k)).1 hd
        rw [draftAt, applyOneLocal_draftValues]
        exact this
    · intro k hcl
      by_cases hkn : k = name
      · rw [hkn, applyOneLocal_draftAt_name st name hnd htrim, committedAt,
          ← committedAt]
        exact (applyOneLocal_committedAt_name_clean st name htrim (hkn ▸ hcl)).symm
      · have hw : lastWinnerValue st.orderedNames k
            [{ name := some name, order := none,
               value := some ((lookupKey st.draftValues name).getD "") }] = none := by
          rw [lastWinnerValue_single, if_neg]
          rintro ⟨h1, _⟩
          exact hkn (by rw [← h1, hres])
        have hph : lookupKey (applyOneLocal name st).placeholders k
            = lookupKey st.placeholders k := by
          rw [applyOneLocal_placeholders]
          exact applyStructuredUpdates_lookup_of_no_winner _ _ _ _ hw
        have hdk : lookupKey
            (setKey st.draftValues name ((lookupKey st.draftValues name).getD "")) k
            = lookupKey st.draftValues k :=
          lookupKey_setKey_ne _ _ _ _ (fun h => hkn h.symm)
        have := (reconcile_nochange st.placeholders (applyOneLocal name st).placeholders
          st.draftValues _ k hnd1 hph hdk (hcovk k)).2 (of_not_not hcl)
        rw [draftAt, applyOneLocal_draftValues, committedAt]
        exact this
  · intro us k v hw
    have hkne : k ≠ "" := by
      intro h
      rw [h, lastWinnerValue_empty] at hw
      cases hw
    have hnd1 : (keysOf (onChatResponse us st).placeholders).Nodup := by
      rw [show (onChatResponse us st).placeholders
          = applyStructuredUpdates st.orderedNames st.placeholders us from rfl,
        keysOf_applyStructuredUpdates]
      exact hnd
    have hd1 : lookupKey (us.foldl (chatDraftStep st.orderedNames) st.draftValues) k
        = some v := by
      rw [lookupKey_chatDraftsLoop, hw]
    cases hph : lookupKey st.placeholders k with
    | none =>
        have hp1 : lookupKey (onChatResponse us st).placeholders k = none := by
          rw [show (onChatResponse us st).placeholders
              = applyStructuredUpdates st.orderedNames st.placeholders us from rfl]
          exact lookupKey_applyStructuredUpdates_none _ _ _ _ hph
        rw [draftAt, show (onChatResponse us st).draftValues
            = reconcileDrafts (onChatResponse us st).placeholders
                (us.foldl (chatDraftStep st.orderedNames) st.draftValues) from rfl,
          lookupKey_reconcileDrafts_none _ _ _ hp1, hd1]
        rfl
    | some ph =>
        have hp1 : lookupKey (onChatResponse us st).placeholders k
            = some { ph with value := v } := by
          rw [show (onChatResponse us st).placeholders
              = applyStructuredUpdates st.orderedNames st.placeholders us from rfl,
            lookupKey_applyStructuredUpdates _ _ _ _ ph hph, hw]
          rfl
        have hrec := lookupKey_reconcileDrafts (onChatResponse us st).placeholders
          (us.foldl (chatDraftStep st.orderedNames) st.draftValues) k
          { ph with value := v } hnd1 hp1
        rw [draftAt, show (onChatResponse us st).draftValues
            = reconcileDrafts (onChatResponse us st).placeholders
                (us.foldl (chatDraftStep st.orderedNames) st.draftValues) from rfl,
          hrec, if_pos]
        · rfl
        · right
          rw [hd1]
          rfl
  · intro us k hw
    have hnd1 : (keysOf (onChatResponse us st).placeholders).Nodup := by
      rw [show (onChatResponse us st).placeholders
          = applyStructuredUpdates st.orderedNames st.placeholders us from rfl,
        keysOf_applyStructuredUpdates]
      exact hnd
    have hph : lookupKey (onChatResponse us st).placeholders k
        = lookupKey st.placeholders k := by
      rw [show (onChatResponse us st).placeholders
          = applyStructuredUpdates st.orderedNames st.placeholders us from rfl]
      exact applyStructuredUpdates_lookup_of_no_winner _ _ _ _ hw
    have hdk : lookupKey (us.foldl (chatDraftStep st.orderedNames) st.draftValues) k
        = lookupKey st.draftValues k := by
      rw [lookupKey_chatDraftsLoop, hw]
    have hnc := reconcile_nochange st.placeholders (onChatResponse us st).placeholders
      st.draftValues (us.foldl (chatDraftStep st.orderedNames) st.draftValues) k
      hnd1 hph hdk (hcovk k)
    constructor
    · intro hd
      rw [draftAt, show (onChatResponse us st).draftValues
          = reconcileDrafts (onChatResponse us st).placeholders
              (us.foldl (chatDraftStep st.orderedNames) st.draftValues) from rfl]
      exact hnc.1 hd
    · intro hcl
      rw [draftAt, show (onChatResponse us st).draftValues
          = reconcileDrafts (onChatResponse us st).placeholders
              (us.foldl (chatDraftStep st.orderedNames) st.draftValues) from rfl,
        committedAt]
      exact hnc.2 (of_not_not hcl)

/-- C1 witness. -/
theorem reconcileMergeSafety_witness :
    (keysOf ([("a", (⟨"a", "", "old"⟩ : Placeholder))])).Nodup
    ∧ draftsCover ⟨["a"], [("a", ⟨"a", "", "old"⟩)], [("a", "draftX")]⟩
    ∧ lastWinnerValue ["a"] "a" [⟨some "a", none, some "new"⟩] = some "new"
    ∧ draftAt (onChatResponse [⟨some "a", none, some "new"⟩]
        ⟨["a"], [("a", ⟨"a", "", "old"⟩)], [("a", "draftX")]⟩) "a" = "new" :=
  ⟨by decide, by decide, by decide,
    (reconcileMergeSafety ⟨["a"], [("a", ⟨"a", "", "old"⟩)], [("a", "draftX")]⟩
      (by decide) (by decide)).2.1 [⟨some "a", none, some "new"⟩] "a" "new" (by decide)⟩

/-! ### Upload name-universe (C4) -/

theorem firstDedupAux_eq_self (l : List String) :
    ∀ seen, (∀ x ∈ l, x ∉ seen) → l.Nodup → firstDedupAux seen l = l := by
  induction l with
  | nil => intro seen _ _; rfl
  | cons k rest ih =>
      intro seen hseen hnd
      rw [firstDedupAux, if_neg (hseen k (List.mem_cons_self _ _))]
      congr 1
      apply ih
      · intro x hx
        simp only [List.mem_cons]
        rintro (h | h)
        · exact (List.nodup_cons.mp hnd).1 (h ▸ hx)
        · exact hseen x (List.mem_cons_of_mem _ hx) h
      · exact (List.nodup_cons.mp hnd).2

theorem firstDedup_eq_self (l : List String) (hnd : l.Nodup) : firstDedup l = l :=
  firstDedupAux_eq_self l [] (by simp) hnd

theorem tagsOf_rename_eq_names (names : List String) (doc : List DocPart)
    (hlen : names.length = numTags doc) :
    tagsOf (renameDocxByOccurrence names doc) = names := by
  rw [tagsOf_renameDocxByOccurrence]
  apply List.ext_getElem?
  intro i
  by_cases hi : i < numTags doc
  · rw [List.getElem?_map, List.getElem?_range hi]
    have hi' : i < names.length := hlen ▸ hi
    simp [resolveName, List.getElem?_eq_getElem hi']
  · rw [List.getElem?_map]
    have h1 : (List.range (numTags doc))[i]? = none := by
      simp [List.getElem?_eq_none]
      omega
    have h2 : names[i]? = none := by
      simp [List.getElem?_eq_none]
      omega
    rw [h1, h2]
    rfl

/-- C4 counterexample: two raw tokens but a single extraction record. The
stored `OrderedNameList` keeps length 1 (it is never padded with synthetic
names), while the store is keyed by `["a", "placeholder_002"]`, so both the
length equation and the key-set equation of the claim fail. -/
theorem nameUniverse_cex :
    (uploadOrderedNames [⟨"a", "d"⟩]).length ≠ numTags [DocPart.tag "X", DocPart.tag "Y"]
    ∧ keysOf (uploadStore [⟨"a", "d"⟩] [DocPart.tag "X", DocPart.tag "Y"])
        ≠ uploadOrderedNames [⟨"a", "d"⟩]
    ∧ keysOf (uploadStore [⟨"a", "d"⟩] [DocPart.tag "X", DocPart.tag "Y"])
        = ["a", "placeholder_002"] := by
  refine ⟨by decide, by decide, by decide⟩

/-- C4 (amended): when the extraction service returns exactly one record per
raw token and the returned names are pairwise distinct, the stored
`OrderedNameList` has one name per raw token, all names are unique, and the
key list of the placeholder store equals `OrderedNameList` exactly.  (In
general the code stores the unpadded API name list, so the claimed invariant
fails whenever the record count differs from the token count or names
repeat.) -/
theorem nameUniverse (api : List ApiPlaceholder) (doc : List DocPart)
    (hlen : (uploadOrderedNames api).length = numTags doc)
    (hnd : (uploadOrderedNames api).Nodup) :
    keysOf (uploadStore api doc) = uploadOrderedNames api
    ∧ (keysOf (uploadStore api doc)).Nodup
    ∧ (uploadOrderedNames api).length = numTags doc := by
  have htags : tagsOf (renameDocxByOccurrence (uploadOrderedNames api) doc)
      = uploadOrderedNames api := tagsOf_rename_eq_names _ _ hlen
  have hkeys : keysOf (uploadStore api doc) = uploadOrderedNames api := by
    rw [uploadStore, htags, firstDedup_eq_self _ hnd, keysOf, List.map_map]
    simp [Function.comp_def]
  exact ⟨hkeys, hkeys ▸ hnd, hlen⟩

/-- C4 witness. -/
theorem nameUniverse_witness :
    (uploadOrderedNames [⟨"a", ""⟩, ⟨"b", ""⟩]).length
        = numTags [DocPart.tag "X", DocPart.text "t", DocPart.tag "Y"]
    ∧ keysOf (uploadStore [⟨"a", ""⟩, ⟨"b", ""⟩]
        [DocPart.tag "X", DocPart.text "t", DocPart.tag "Y"]) = ["a", "b"] :=
  ⟨by decide,
    (nameUniverse [⟨"a", ""⟩, ⟨"b", ""⟩]
      [DocPart.tag "X", DocPart.text "t", DocPart.tag "Y"] (by decide) (by decide)).1⟩

/-! ### Positional binding (C5) -/

/-- Erase the raw content of every tag, keeping the document's shape: two
documents are "identical except for the raw text of placeholder tokens at the
same positions" iff their erasures agree. -/
def eraseTagContent : DocPart → DocPart
  | .text s => .text s
  | .tag _ => .tag ""

theorem string_data_append (x y : String) : (x ++ y).data = x.data ++ y.data := by
  cases x
  cases y
  rfl

theorem natDigitsAux_eq (fuel : Nat) : ∀ n : Nat, n ≤ fuel →
    natDigitsAux fuel n = (Nat.digits 10 n).reverse.map digitChar := by
  induction fuel with
  | zero =>
      intro n h
      have : n = 0 := Nat.le_zero.mp h
      subst this
      simp [natDigitsAux]
  | succ f ih =>
      intro n h
      rw [natDigitsAux]
      by_cases hn : n = 0
      · simp [hn]
      · rw [if_neg hn, ih (n / 10) (by
          have := Nat.div_lt_self (Nat.pos_of_ne_zero hn) (by norm_num : 1 < 10)
          omega)]
        rw [Nat.digits_def' (by norm_num : (1 : ℕ) < 10) (Nat.pos_of_ne_zero hn)]
        simp

theorem digitChar_inj (d e : Nat) (hd : d < 10) (he : e < 10)
    (h : digitChar d = digitChar e) : d = e := by
  interval_cases d <;> interval_cases e <;> revert h <;> decide

theorem digitChar_ne_zeroChar (d : Nat) (hd : d < 10) (h : d ≠ 0) : digitChar d ≠ '0' := by
  interval_cases d <;> revert h <;> decide

theorem map_digitChar_inj : ∀ l1 l2 : List Nat, (∀ x ∈ l1, x < 10) → (∀ x ∈ l2, x < 10) →
    l1.map digitChar = l2.map digitChar → l1 = l2 := by
  intro l1
  induction l1 with
  | nil =>
      intro l2 _ _ h
      cases l2 with
      | nil => rfl
      | cons y r => simp at h
  | cons x rest ih =>
      intro l2 h1 h2 h
      cases l2 with
      | nil => simp at h
      | cons y rest2 =>
          simp only [List.map_cons, List.cons.injEq] at h
          have hx := h1 x (List.mem_cons_self _ _)
          have hy := h2 y (List.mem_cons_self _ _)
          rw [digitChar_inj x y hx hy h.1,
            ih rest2 (fun z hz => h1 z (List.mem_cons_of_mem _ hz))
              (fun z hz => h2 z (List.mem_cons_of_mem _ hz)) h.2]

/-- The big-endian digit-character list of `n`. -/
def reprDigits (n : Nat) : List Char := (Nat.digits 10 n).reverse.map digitChar

theorem reprDigits_inj (a b : Nat) (h : reprDigits a = reprDigits b) : a = b := by
  have hbound : ∀ m : Nat, ∀ x ∈ (Nat.digits 10 m).reverse, x < 10 := by
    intro m x hx
    exact Nat.digits_lt_base (by norm_num) (List.mem_reverse.mp hx)
  have hrev := map_digitChar_inj _ _ (hbound a) (hbound b) h
  have : Nat.digits 10 a = Nat.digits 10 b := by
    simpa using congrArg List.reverse hrev
  exact Nat.digits.injective 10 this

theorem reprDigits_head_ne_zeroChar (n : Nat) (hn : n ≠ 0) (c : Char)
    (hc : (reprDigits n).head? = some c) : c ≠ '0' := by
  have hne : Nat.digits 10 n ≠ [] := Nat.digits_ne_nil_iff_ne_zero.mpr hn
  rw [reprDigits, List.head?_map, List.head?_reverse,
    List.getLast?_eq_getLast _ hne, Option.map_some'] at hc
  have hc' : c = digitChar ((Nat.digits 10 n).getLast hne) := (Option.some.inj hc).symm
  have hlt : (Nat.digits 10 n).getLast hne < 10 :=
    Nat.digits_lt_base (by norm_num) (List.getLast_mem hne)
  have hnz : (Nat.digits 10 n).getLast hne ≠ 0 := Nat.getLast_digit_ne_zero 10 hn
  rw [hc']
  exact digitChar_ne_zeroChar _ hlt hnz

theorem reprDigits_ne_nil (n : Nat) (hn : n ≠ 0) : reprDigits n ≠ [] := by
  rw [reprDigits]
  simp [Nat.digits_ne_nil_iff_ne_zero.mpr hn]

/-- Zero-padding the decimal representation to (at least) three characters is
injective on positive naturals: the representation has no leading zero. -/
theorem padReprDigits_inj (a b : Nat) (ha : a ≠ 0) (hb : b ≠ 0)
    (h : List.replicate (3 - (reprDigits a).length) '0' ++ reprDigits a
        = List.replicate (3 - (reprDigits b).length) '0' ++ reprDigits b) : a = b := by
  have hlen := congrArg List.length h
  simp only [List.length_append, List.length_replicate] at hlen
  rcases Nat.lt_trichotomy (reprDigits a).length (reprDigits b).length with hL | hL | hL
  · exfalso
    have hb3 : (reprDigits b).length ≤ 3 := by omega
    have hpos : 3 - (reprDigits b).length < 3 - (reprDigits a).length := by omega
    have hget := congrArg (fun l => l[3 - (reprDigits b).length]?) h
    simp only at hget
    rw [List.getElem?_append_left (by simpa using hpos),
      List.getElem?_append_right (by simp)] at hget
    rw [List.getElem?_replicate, if_pos hpos] at hget
    simp only [List.length_replicate, Nat.sub_self, ← List.head?_eq_getElem?] at hget
    cases hhead : (reprDigits b).head? with
    | none =>
        rw [hhead] at hget
        cases hget
    | some c =>
        rw [hhead] at hget
        exact reprDigits_head_ne_zeroChar b hb c hhead (Option.some.inj hget).symm
  · rw [hL] at h
    exact reprDigits_inj a b (List.append_cancel_left h)
  · exfalso
    have ha3 : (reprDigits a).length ≤ 3 := by omega
    have hpos : 3 - (reprDigits a).length < 3 - (reprDigits b).length := by omega
    have hget := congrArg (fun l => l[3 - (reprDigits a).length]?) h
    simp only at hget
    rw [List.getElem?_append_right (by simp),
      List.getElem?_append_left (by simpa using hpos)] at hget
    rw [List.getElem?_replicate, if_pos hpos] at hget
    simp only [List.length_replicate, Nat.sub_self, ← List.head?_eq_getElem?] at hget
    cases hhead : (reprDigits a).head? with
    | none =>
        rw [hhead] at hget
        cases hget
    | some c =>
        rw [hhead] at hget
        exact reprDigits_head_ne_zeroChar a ha c hhead (Option.some.inj hget)

theorem natToString_data (n : Nat) (hn : n ≠ 0) : (natToString n).data = reprDigits n := by
  rw [natToString, if_neg hn]
  exact natDigitsAux_eq n n (Nat.le_refl n)

/-- The synthetic fallback names are pairwise distinct across positive
positions. -/
theorem fallbackName_inj (a b : Nat) (ha : a ≠ 0) (hb : b ≠ 0)
    (h : fallbackName a = fallbackName b) : a = b := by
  have hdata := congrArg String.data h
  rw [fallbackName, fallbackName, string_data_append, string_data_append] at hdata
  have hpad := List.append_cancel_left hdata
  have hpad2 : List.replicate (3 - (natToString a).data.length) '0' ++ (natToString a).data
      = List.replicate (3 - (natToString b).data.length) '0' ++ (natToString b).data := hpad
  rw [natToString_data a ha, natToString_data b hb] at hpad2
  exact padReprDigits_inj a b ha hb hpad2

theorem fallbackName_data_length (p : Nat) : 15 ≤ (fallbackName p).data.length := by
  rw [fallbackName, string_data_append, List.length_append]
  have h1 : ("placeholder_" : String).data.length = 12 := by decide
  have h2 : (padStart3 (natToString p)).data.length
      = (3 - (natToString p).data.length) + (natToString p).data.length := by
    simp [padStart3]
  rw [h1, h2]
  omega

theorem renameGo_congr (names : List String) :
    ∀ (i : Nat) (d1 d2 : List DocPart), d1.map eraseTagContent = d2.map eraseTagContent →
      renameGo names i d1 = renameGo names i d2 := by
  intro i d1
  induction d1 generalizing i with
  | nil =>
      intro d2 h
      cases d2 with
      | nil => rfl
      | cons p r => simp at h
  | cons p r ih =>
      intro d2 h
      cases d2 with
      | nil => simp at h
      | cons p2 r2 =>
          simp only [List.map_cons, List.cons.injEq] at h
          cases p with
          | text s =>
              cases p2 with
              | text s2 =>
                  have hs : s = s2 := by simpa [eraseTagContent] using h.1
                  rw [renameGo, renameGo, hs, ih i r2 h.2]
              | tag r3 => simp [eraseTagContent] at h
          | tag r3 =>
              cases p2 with
              | text s2 => simp [eraseTagContent] at h
              | tag r4 => rw [renameGo, renameGo, ih (i + 1) r2 h.2]

/-- C5 counterexample: with the duplicate canonical-name list `["a","a"]`,
the two tokens of `[X, X]` (identical raw text, different positions) both
receive the canonical name `"a"` — refuting the claim's consequence that such
tokens always receive different canonical names. -/
theorem positionalBinding_cex :
    resolveName ["a", "a"] 0 = resolveName ["a", "a"] 1
    ∧ (0 : Nat) ≠ 1
    ∧ tagsOf (renameDocxByOccurrence ["a", "a"] [DocPart.tag "X", DocPart.tag "X"])
        = ["a", "a"] := by
  refine ⟨by decide, by decide, by decide⟩

/-- C5 (amended): binding is positional and content-independent — two
documents identical except for the raw text of tokens at the same positions
are rewritten identically; and provided the canonical-name list is
duplicate-free and contains no synthetic fallback name, tokens at different
positions receive different canonical names (with duplicate names in the
supplied list, distinct positions can receive the same name). -/
theorem positionalBinding (names : List String) :
    (∀ doc1 doc2, doc1.map eraseTagContent = doc2.map eraseTagContent →
      renameDocxByOccurrence names doc1 = renameDocxByOccurrence names doc2)
    ∧ (names.Nodup → (∀ p, fallbackName p ∉ names) →
        ∀ i j, i ≠ j → resolveName names i ≠ resolveName names j) := by
  constructor
  · intro d1 d2 h
    exact renameGo_congr names 0 d1 d2 h
  · intro hnd hdisj i j hij heq
    by_cases hi : i < names.length <;> by_cases hj : j < names.length
    · rw [resolveName, resolveName, List.getElem?_eq_getElem hi,
        List.getElem?_eq_getElem hj] at heq
      simp only [Option.getD_some] at heq
      exact hij (hnd.getElem_inj_iff.mp heq)
    · rw [resolveName, resolveName, List.getElem?_eq_getElem hi,
        List.getElem?_eq_none (by omega), Option.getD_some, Option.getD_none] at heq
      exact hdisj (j + 1) (heq ▸ List.getElem_mem hi)
    · rw [resolveName, resolveName, List.getElem?_eq_none (by omega),
        List.getElem?_eq_getElem hj, Option.getD_none, Option.getD_some] at heq
      exact hdisj (i + 1) (heq ▸ List.getElem_mem hj)
    · rw [resolveName, resolveName, List.getElem?_eq_none (by omega),
        List.getElem?_eq_none (by omega), Option.getD_none, Option.getD_none] at heq
      have := fallbackName_inj (i + 1) (j + 1) (by omega) (by omega) heq
      omega

/-- C5 witness. -/
theorem positionalBinding_witness :
    (["a", "b"] : List String).Nodup
    ∧ resolveName ["a", "b"] 0 ≠ resolveName ["a", "b"] 1 := by
  refine ⟨by decide, ?_⟩
  apply (positionalBinding ["a", "b"]).2 (by decide) ?_ 0 1 (by decide)
  intro p hp
  have hlen := fallbackName_data_length p
  have hmem : fallbackName p = "a" ∨ fallbackName p = "b" := by simpa using hp
  rcases hmem with h | h <;> rw [h] at hlen <;> revert hlen <;> decide

end Filler
